import Mathlib

set_option maxRecDepth 8192

/-!
Verification of the mojibake reverser in scripts/fix_encoding.py.

The program repairs UTF-8 double-encoding: it re-encodes each character of
the suspect text with Windows-1252 (falling back to Latin-1, and as a last
resort to the UTF-8 bytes of the character itself), then attempts a strict
UTF-8 decode of the accumulated byte buffer.  Success yields the repaired
text; a decode failure means the file is left unchanged.

Code points are modelled as natural numbers (a Python str is a sequence of
code points in the range 0x0 to 0x10FFFF, surrogates included); byte
buffers are lists of naturals below 0x100.
-/

namespace FixEncoding

/-- Encoding side of the Windows-1252 mapping for the code points that the
cp1252 table sends to bytes 0x80 to 0x9F.  Exactly 27 code points are
covered; the five bytes 0x81, 0x8D, 0x8F, 0x90 and 0x9D are undefined in
cp1252 and have no preimage here. -/
def cp1252HighEncode (c : Nat) : Option Nat :=
  if c = 0x20AC then some 0x80
  else if c = 0x201A then some 0x82
  else if c = 0x0192 then some 0x83
  else if c = 0x201E then some 0x84
  else if c = 0x2026 then some 0x85
  else if c = 0x2020 then some 0x86
  else if c = 0x2021 then some 0x87
  else if c = 0x02C6 then some 0x88
  else if c = 0x2030 then some 0x89
  else if c = 0x0160 then some 0x8A
  else if c = 0x2039 then some 0x8B
  else if c = 0x0152 then some 0x8C
  else if c = 0x017D then some 0x8E
  else if c = 0x2018 then some 0x91
  else if c = 0x2019 then some 0x92
  else if c = 0x201C then some 0x93
  else if c = 0x201D then some 0x94
  else if c = 0x2022 then some 0x95
  else if c = 0x2013 then some 0x96
  else if c = 0x2014 then some 0x97
  else if c = 0x02DC then some 0x98
  else if c = 0x2122 then some 0x99
  else if c = 0x0161 then some 0x9A
  else if c = 0x203A then some 0x9B
  else if c = 0x0153 then some 0x9C
  else if c = 0x017E then some 0x9E
  else if c = 0x0178 then some 0x9F
  else none

/-- Windows-1252 encoding of a code point, as in char.encode with the
cp1252 codec: identity on 0x00 to 0x7F and on 0xA0 to 0xFF, the special
table for the code points mapped to bytes 0x80 to 0x9F, undefined (none)
everywhere else. -/
def cp1252Encode (c : Nat) : Option Nat :=
  if c < 0x80 then some c
  else if 0xA0 ≤ c ∧ c ≤ 0xFF then some c
  else cp1252HighEncode c

/-- Decoding side of the Windows-1252 table for bytes 0x80 to 0x9F; the
five undefined bytes return none. -/
def cp1252HighDecode (b : Nat) : Option Nat :=
  if b = 0x80 then some 0x20AC
  else if b = 0x82 then some 0x201A
  else if b = 0x83 then some 0x0192
  else if b = 0x84 then some 0x201E
  else if b = 0x85 then some 0x2026
  else if b = 0x86 then some 0x2020
  else if b = 0x87 then some 0x2021
  else if b = 0x88 then some 0x02C6
  else if b = 0x89 then some 0x2030
  else if b = 0x8A then some 0x0160
  else if b = 0x8B then some 0x2039
  else if b = 0x8C then some 0x0152
  else if b = 0x8E then some 0x017D
  else if b = 0x91 then some 0x2018
  else if b = 0x92 then some 0x2019
  else if b = 0x93 then some 0x201C
  else if b = 0x94 then some 0x201D
  else if b = 0x95 then some 0x2022
  else if b = 0x96 then some 0x2013
  else if b = 0x97 then some 0x2014
  else if b = 0x98 then some 0x02DC
  else if b = 0x99 then some 0x2122
  else if b = 0x9A then some 0x0161
  else if b = 0x9B then some 0x203A
  else if b = 0x9C then some 0x0153
  else if b = 0x9E then some 0x017E
  else if b = 0x9F then some 0x0178
  else none

/-- The corruption of one byte: decode it as Windows-1252, falling back to
Latin-1 (the identity on byte values) for the five bytes cp1252 leaves
undefined.  This is the per-byte step of the mojibake-producing process
that the script is designed to invert. -/
def corruptByte (b : Nat) : Nat :=
  if b < 0x80 then b
  else if b < 0xA0 then (cp1252HighDecode b).getD b
  else b

/-- A Unicode scalar value: a code point below 0x110000 that is not a
surrogate.  Exactly the code points that strict UTF-8 can represent. -/
def ScalarValue (c : Nat) : Prop :=
  c < 0x110000 ∧ ¬(0xD800 ≤ c ∧ c ≤ 0xDFFF)

instance : DecidablePred ScalarValue := fun c => by
  unfold ScalarValue; infer_instance

/-- The UTF-8 byte sequence of a code point (meaningful for scalar
values). -/
def utf8EncodeChar (c : Nat) : List Nat :=
  if c < 0x80 then [c]
  else if c < 0x800 then [0xC0 + c / 64, 0x80 + c % 64]
  else if c < 0x10000 then [0xE0 + c / 4096, 0x80 + c / 64 % 64, 0x80 + c % 64]
  else [0xF0 + c / 262144, 0x80 + c / 4096 % 64, 0x80 + c / 64 % 64, 0x80 + c % 64]

/-- UTF-8 encoding of a whole text. -/
def utf8Bytes (t : List Nat) : List Nat :=
  (t.map utf8EncodeChar).flatten

/-- char.encode with the utf-8 codec in Python: defined exactly on scalar
values; surrogate code points raise, hence none. -/
def pyEncodeUtf8 (c : Nat) : Option (List Nat) :=
  if ScalarValue c then some (utf8EncodeChar c) else none

/-- The per-character remapping of the source loop: try cp1252 first,
fall back to Latin-1 (one byte equal to the code point, valid up to 0xFF),
and as a last resort keep the UTF-8 bytes of the character itself. -/
def remapChar (c : Nat) : Option (List Nat) :=
  match cp1252Encode c with
  | some b => some [b]
  | none => if c ≤ 0xFF then some [c] else pyEncodeUtf8 c

/-- The accumulating loop of the source: extend the byte buffer with each
character in order, left to right; the whole loop fails if one character
fails all three encodings (the exception then escapes the loop). -/
def remapGo (buf : List Nat) : List Nat → Option (List Nat)
  | [] => some buf
  | c :: s =>
    match remapChar c with
    | some bs => remapGo (buf ++ bs) s
    | none => none

/-- The reversed byte buffer built from the mojibake text, starting from
an empty buffer. -/
def remapBytes (s : List Nat) : Option (List Nat) :=
  remapGo [] s

mutual

/-- Strict UTF-8 decoding of a byte list into code points, as in Python
bytes.decode with the utf-8 codec: rejects lone continuation bytes,
truncated sequences, overlong forms, surrogates, values above 0x10FFFF and
lead bytes 0xF8 and beyond.  The mutually recursive helpers consume the
continuation bytes of a two-, three- or four-byte sequence one at a time;
a sequence is accepted only when every continuation byte is in the range
0x80 to 0xBF and the decoded value is in the range its length dictates and
is a scalar value. -/
def utf8Decode : List Nat → Option (List Nat)
  | [] => some []
  | b :: rest =>
    if b < 0x80 then (utf8Decode rest).map (fun t => b :: t)
    else if b < 0xC0 then none
    else if b < 0xE0 then utf8DecodeTwo b rest
    else if b < 0xF0 then utf8DecodeThree b rest
    else if b < 0xF8 then utf8DecodeFour b rest
    else none

/-- Second byte of a two-byte sequence with lead byte b. -/
def utf8DecodeTwo (b : Nat) : List Nat → Option (List Nat)
  | b1 :: rest =>
    if (0x80 ≤ b1 ∧ b1 < 0xC0) ∧ 0x80 ≤ (b - 0xC0) * 64 + (b1 - 0x80) then
      (utf8Decode rest).map (fun t => ((b - 0xC0) * 64 + (b1 - 0x80)) :: t)
    else none
  | [] => none

/-- Second byte of a three-byte sequence with lead byte b. -/
def utf8DecodeThree (b : Nat) : List Nat → Option (List Nat)
  | b1 :: rest =>
    if 0x80 ≤ b1 ∧ b1 < 0xC0 then utf8DecodeThreeEnd ((b - 0xE0) * 64 + (b1 - 0x80)) rest
    else none
  | [] => none

/-- Last byte of a three-byte sequence whose first two bytes decoded to
the high part hi; rejects overlong forms and surrogates. -/
def utf8DecodeThreeEnd (hi : Nat) : List Nat → Option (List Nat)
  | b2 :: rest =>
    if (0x80 ≤ b2 ∧ b2 < 0xC0) ∧ 0x800 ≤ hi * 64 + (b2 - 0x80) ∧
        ¬(0xD800 ≤ hi * 64 + (b2 - 0x80) ∧ hi * 64 + (b2 - 0x80) ≤ 0xDFFF) then
      (utf8Decode rest).map (fun t => (hi * 64 + (b2 - 0x80)) :: t)
    else none
  | [] => none

/-- Second byte of a four-byte sequence with lead byte b. -/
def utf8DecodeFour (b : Nat) : List Nat → Option (List Nat)
  | b1 :: rest =>
    if 0x80 ≤ b1 ∧ b1 < 0xC0 then utf8DecodeFourMid ((b - 0xF0) * 64 + (b1 - 0x80)) rest
    else none
  | [] => none

/-- Third byte of a four-byte sequence. -/
def utf8DecodeFourMid (hi : Nat) : List Nat → Option (List Nat)
  | b2 :: rest =>
    if 0x80 ≤ b2 ∧ b2 < 0xC0 then utf8DecodeFourEnd (hi * 64 + (b2 - 0x80)) rest
    else none
  | [] => none

/-- Last byte of a four-byte sequence; rejects overlong forms and values
beyond 0x10FFFF. -/
def utf8DecodeFourEnd (hi : Nat) : List Nat → Option (List Nat)
  | b3 :: rest =>
    if (0x80 ≤ b3 ∧ b3 < 0xC0) ∧ 0x10000 ≤ hi * 64 + (b3 - 0x80) ∧
        hi * 64 + (b3 - 0x80) < 0x110000 then
      (utf8Decode rest).map (fun t => (hi * 64 + (b3 - 0x80)) :: t)
    else none
  | [] => none

end

/-- Outcome of the mojibake reverser, as specified: the repaired text, or
the no-mojibake signal, or the fatal condition (a character that none of
the three encodings can represent). -/
inductive Outcome where
  | repaired (t : List Nat)
  | unchanged
  | fatal
deriving DecidableEq, Repr

/-- The mojibake reverser: remap every character to bytes, then attempt a
strict UTF-8 decode of the buffer.  A successful decode is the repaired
text; a failed decode means the input was not mojibake. -/
def reverse (s : List Nat) : Outcome :=
  match remapBytes s with
  | none => Outcome.fatal
  | some bs =>
    match utf8Decode bs with
    | some t => Outcome.repaired t
    | none => Outcome.unchanged

/-- File-level behaviour of fix_double_encoding, as a pure function from
the file content (bytes) to the resulting content and the returned
boolean: read the file as UTF-8 (a failure is caught by the outer handler
and the file is not touched), run the reverser, write the repaired text
back UTF-8 encoded on success, leave the content alone on the unchanged
outcome (returning True) and on the fatal path (the escaped exception is
caught by the outer handler, which returns False). -/
def fix_double_encoding (content : List Nat) : List Nat × Bool :=
  match utf8Decode content with
  | none => (content, false)
  | some text =>
    match reverse text with
    | Outcome.repaired t => (utf8Bytes t, true)
    | Outcome.unchanged => (content, true)
    | Outcome.fatal => (content, false)

/-- The corruption process of the round-trip property: take the UTF-8
bytes of the original text and decode them byte by byte as Windows-1252
with the Latin-1 identity fallback. -/
def corrupt (t : List Nat) : List Nat :=
  (utf8Bytes t).map corruptByte

end FixEncoding

namespace FixEncoding

/-- The accumulating loop is the loop from the empty buffer with the
already-accumulated buffer prepended. -/
theorem remapGo_eq_map (s : List Nat) :
    ∀ buf, remapGo buf s = (remapBytes s).map (fun bs => buf ++ bs) := by
  induction s with
  | nil => intro buf; simp [remapGo, remapBytes]
  | cons c s ih =>
    intro buf
    cases h : remapChar c with
    | none => simp [remapGo, remapBytes, h]
    | some bs =>
      simp only [remapGo, remapBytes, h]
      rw [ih (buf ++ bs), ih ([] ++ bs)]
      cases remapBytes s <;> simp [List.append_assoc]

/-- Unfolding of the buffer on one more character. -/
theorem remapBytes_cons (c : Nat) (s : List Nat) :
    remapBytes (c :: s) =
      (remapChar c).bind (fun bs => (remapBytes s).map (fun r => bs ++ r)) := by
  cases h : remapChar c with
  | none => simp [remapBytes, remapGo, h]
  | some bs =>
    show remapGo [] (c :: s) = _
    simp only [remapGo, h]
    rw [remapGo_eq_map]
    cases remapBytes s <;> simp

set_option maxRecDepth 4096 in
/-- Every byte, corrupted through the cp1252-with-latin-1-fallback decode
and then fed back through the per-character remapping of the script, comes
back as exactly itself. -/
theorem remapChar_corruptByte : ∀ b < 0x100, remapChar (corruptByte b) = some [b] := by
  decide

/-- UTF-8 bytes of an in-range code point are bytes. -/
theorem utf8EncodeChar_lt (c : Nat) (hc : c < 0x110000) :
    ∀ b ∈ utf8EncodeChar c, b < 0x100 := by
  intro b hb
  unfold utf8EncodeChar at hb
  split at hb <;> [skip; split at hb] <;> [skip; skip; split at hb] <;>
    simp only [List.mem_cons, List.not_mem_nil, or_false] at hb <;> omega

/-- The per-character remapping undoes the per-byte corruption on every
byte list. -/
theorem remapBytes_map_corruptByte (bs : List Nat) (h : ∀ b ∈ bs, b < 0x100) :
    remapBytes (bs.map corruptByte) = some bs := by
  induction bs with
  | nil => rfl
  | cons b bs ih =>
    simp only [List.map_cons]
    rw [remapBytes_cons, remapChar_corruptByte b (h b (List.mem_cons_self b bs)),
      ih (fun x hx => h x (List.mem_cons_of_mem b hx))]
    rfl

end FixEncoding

namespace FixEncoding

/-- Decoder step on an ASCII byte. -/
theorem utf8Decode_cons1 (b : Nat) (rest : List Nat) (hb : b < 0x80) :
    utf8Decode (b :: rest) = (utf8Decode rest).map (fun t => b :: t) := by
  rw [utf8Decode, if_pos hb]

/-- Decoder step on a well-formed two-byte sequence. -/
theorem utf8Decode_cons2 (b b1 v : Nat) (rest : List Nat)
    (hv : v = (b - 0xC0) * 64 + (b1 - 0x80))
    (hb : 0xC0 ≤ b) (hb2 : b < 0xE0) (h1 : 0x80 ≤ b1) (h2 : b1 < 0xC0)
    (hval : 0x80 ≤ v) :
    utf8Decode (b :: b1 :: rest) = (utf8Decode rest).map (fun t => v :: t) := by
  subst hv
  rw [utf8Decode, if_neg (by omega), if_neg (by omega), if_pos hb2, utf8DecodeTwo,
    if_pos (show (0x80 ≤ b1 ∧ b1 < 0xC0) ∧ 0x80 ≤ (b - 0xC0) * 64 + (b1 - 0x80) from
      ⟨⟨h1, h2⟩, hval⟩)]

/-- Decoder step on a well-formed three-byte sequence. -/
theorem utf8Decode_cons3 (b b1 b2 v : Nat) (rest : List Nat)
    (hv : v = (b - 0xE0) * 4096 + (b1 - 0x80) * 64 + (b2 - 0x80))
    (hb : 0xE0 ≤ b) (hb2 : b < 0xF0) (h1 : 0x80 ≤ b1) (h2 : b1 < 0xC0)
    (h3 : 0x80 ≤ b2) (h4 : b2 < 0xC0)
    (hval : 0x800 ≤ v) (hsur : ¬(0xD800 ≤ v ∧ v ≤ 0xDFFF)) :
    utf8Decode (b :: b1 :: b2 :: rest) = (utf8Decode rest).map (fun t => v :: t) := by
  have e : ((b - 0xE0) * 64 + (b1 - 0x80)) * 64 + (b2 - 0x80) = v := by omega
  rw [utf8Decode, if_neg (by omega), if_neg (by omega), if_neg (by omega), if_pos hb2,
    utf8DecodeThree, if_pos (show 0x80 ≤ b1 ∧ b1 < 0xC0 from ⟨h1, h2⟩), utf8DecodeThreeEnd,
    if_pos (show (0x80 ≤ b2 ∧ b2 < 0xC0) ∧
        0x800 ≤ ((b - 0xE0) * 64 + (b1 - 0x80)) * 64 + (b2 - 0x80) ∧
        ¬(0xD800 ≤ ((b - 0xE0) * 64 + (b1 - 0x80)) * 64 + (b2 - 0x80) ∧
          ((b - 0xE0) * 64 + (b1 - 0x80)) * 64 + (b2 - 0x80) ≤ 0xDFFF) from
      ⟨⟨h3, h4⟩, by omega, by rw [e]; exact hsur⟩), e]

/-- Decoder step on a well-formed four-byte sequence. -/
theorem utf8Decode_cons4 (b b1 b2 b3 v : Nat) (rest : List Nat)
    (hv : v = (b - 0xF0) * 262144 + (b1 - 0x80) * 4096 + (b2 - 0x80) * 64 + (b3 - 0x80))
    (hb : 0xF0 ≤ b) (hb2 : b < 0xF8) (h1 : 0x80 ≤ b1) (h2 : b1 < 0xC0)
    (h3 : 0x80 ≤ b2) (h4 : b2 < 0xC0) (h5 : 0x80 ≤ b3) (h6 : b3 < 0xC0)
    (hval : 0x10000 ≤ v) (hval2 : v < 0x110000) :
    utf8Decode (b :: b1 :: b2 :: b3 :: rest) = (utf8Decode rest).map (fun t => v :: t) := by
  have e : (((b - 0xF0) * 64 + (b1 - 0x80)) * 64 + (b2 - 0x80)) * 64 + (b3 - 0x80) = v := by
    omega
  rw [utf8Decode, if_neg (by omega), if_neg (by omega), if_neg (by omega), if_neg (by omega),
    if_pos hb2, utf8DecodeFour, if_pos (show 0x80 ≤ b1 ∧ b1 < 0xC0 from ⟨h1, h2⟩),
    utf8DecodeFourMid, if_pos (show 0x80 ≤ b2 ∧ b2 < 0xC0 from ⟨h3, h4⟩), utf8DecodeFourEnd,
    if_pos (show (0x80 ≤ b3 ∧ b3 < 0xC0) ∧
        0x10000 ≤ (((b - 0xF0) * 64 + (b1 - 0x80)) * 64 + (b2 - 0x80)) * 64 + (b3 - 0x80) ∧
        (((b - 0xF0) * 64 + (b1 - 0x80)) * 64 + (b2 - 0x80)) * 64 + (b3 - 0x80) < 0x110000 from
      ⟨⟨h5, h6⟩, by omega, by omega⟩), e]

/-- Decoding the UTF-8 bytes of one scalar value prepended to any byte
tail decodes that scalar value and continues on the tail. -/
theorem utf8Decode_encodeChar (c : Nat) (hc : ScalarValue c) (rest : List Nat) :
    utf8Decode (utf8EncodeChar c ++ rest) = (utf8Decode rest).map (fun t => c :: t) := by
  obtain ⟨hlt, hsur⟩ := hc
  by_cases k1 : c < 0x80
  · rw [utf8EncodeChar, if_pos k1]
    exact utf8Decode_cons1 c rest k1
  · by_cases k2 : c < 0x800
    · rw [utf8EncodeChar, if_neg k1, if_pos k2]
      simp only [List.cons_append, List.nil_append]
      exact utf8Decode_cons2 (0xC0 + c / 64) (0x80 + c % 64) c rest (by omega)
        (by omega) (by omega) (by omega) (by omega) (by omega)
    · by_cases k3 : c < 0x10000
      · rw [utf8EncodeChar, if_neg k1, if_neg k2, if_pos k3]
        simp only [List.cons_append, List.nil_append]
        exact utf8Decode_cons3 (0xE0 + c / 4096) (0x80 + c / 64 % 64) (0x80 + c % 64) c rest
          (by omega) (by omega) (by omega) (by omega) (by omega) (by omega) (by omega)
          (by omega) (by omega)
      · rw [utf8EncodeChar, if_neg k1, if_neg k2, if_neg k3]
        simp only [List.cons_append, List.nil_append]
        exact utf8Decode_cons4 (0xF0 + c / 262144) (0x80 + c / 4096 % 64) (0x80 + c / 64 % 64)
          (0x80 + c % 64) c rest (by omega) (by omega) (by omega) (by omega) (by omega)
          (by omega) (by omega) (by omega) (by omega) (by omega) (by omega)

/-- UTF-8 bytes of a cons. -/
theorem utf8Bytes_cons (c : Nat) (t : List Nat) :
    utf8Bytes (c :: t) = utf8EncodeChar c ++ utf8Bytes t := by
  simp [utf8Bytes]

/-- Encoding a text of scalar values and decoding the bytes gives the text
back: strict UTF-8 decode is a left inverse of UTF-8 encode. -/
theorem utf8Decode_utf8Bytes (t : List Nat) (h : ∀ c ∈ t, ScalarValue c) :
    utf8Decode (utf8Bytes t) = some t := by
  induction t with
  | nil => rfl
  | cons c t ih =>
    rw [utf8Bytes_cons, utf8Decode_encodeChar c (h c (List.mem_cons_self c t)),
      ih (fun x hx => h x (List.mem_cons_of_mem c hx))]
    rfl

end FixEncoding

namespace FixEncoding

/-- Inversion of the decoder, by strong induction on the byte count: a
successful strict UTF-8 decode yields only scalar values, and re-encoding
the decoded text gives back exactly the input bytes. -/
theorem utf8Decode_inversion :
    ∀ (n : Nat) (bs t : List Nat), bs.length ≤ n → utf8Decode bs = some t →
      (∀ c ∈ t, ScalarValue c) ∧ utf8Bytes t = bs := by
  intro n
  induction n with
  | zero =>
    intro bs t hlen h
    have hbs : bs = [] := List.eq_nil_of_length_eq_zero (Nat.le_zero.mp hlen)
    subst hbs
    have ht : t = [] := by
      have : some ([] : List Nat) = some t := h
      exact (Option.some.injEq _ _ ▸ this).symm
    subst ht
    exact ⟨by intro c hc; exact absurd hc (List.not_mem_nil c), rfl⟩
  | succ n ih =>
    intro bs t hlen h
    cases bs with
    | nil =>
      have ht : t = [] := by
        have : some ([] : List Nat) = some t := h
        exact (Option.some.injEq _ _ ▸ this).symm
      subst ht
      exact ⟨by intro c hc; exact absurd hc (List.not_mem_nil c), rfl⟩
    | cons b rest =>
      rw [utf8Decode] at h
      by_cases k1 : b < 0x80
      · rw [if_pos k1, Option.map_eq_some'] at h
        obtain ⟨t', ht', rfl⟩ := h
        have hl : rest.length ≤ n := by
          simp only [List.length_cons] at hlen; omega
        obtain ⟨hs, he⟩ := ih rest t' hl ht'
        refine ⟨?_, ?_⟩
        · intro c hc
          rcases List.mem_cons.mp hc with hcb | hct
          · subst hcb; exact ⟨by omega, by omega⟩
          · exact hs c hct
        · rw [utf8Bytes_cons, he, utf8EncodeChar, if_pos k1]
          rfl
      · rw [if_neg k1] at h
        by_cases k2 : b < 0xC0
        · rw [if_pos k2] at h; exact Option.noConfusion h
        · rw [if_neg k2] at h
          by_cases k3 : b < 0xE0
          · -- two-byte sequence
            rw [if_pos k3] at h
            cases rest with
            | nil => rw [utf8DecodeTwo] at h; exact Option.noConfusion h
            | cons b1 rest1 =>
              rw [utf8DecodeTwo] at h
              by_cases hc : (0x80 ≤ b1 ∧ b1 < 0xC0) ∧ 0x80 ≤ (b - 0xC0) * 64 + (b1 - 0x80)
              · rw [if_pos hc, Option.map_eq_some'] at h
                obtain ⟨t', ht', rfl⟩ := h
                have hl : rest1.length ≤ n := by
                  simp only [List.length_cons] at hlen; omega
                obtain ⟨hs, he⟩ := ih rest1 t' hl ht'
                obtain ⟨⟨hb1, hb1'⟩, hval⟩ := hc
                refine ⟨?_, ?_⟩
                · intro c hcm
                  rcases List.mem_cons.mp hcm with hcb | hct
                  · subst hcb; exact ⟨by omega, by omega⟩
                  · exact hs c hct
                · rw [utf8Bytes_cons, he, utf8EncodeChar, if_neg (by omega), if_pos (by omega)]
                  simp only [List.cons_append, List.nil_append, List.cons.injEq]
                  exact ⟨by omega, by omega, trivial⟩
              · rw [if_neg hc] at h; exact Option.noConfusion h
          · rw [if_neg k3] at h
            by_cases k4 : b < 0xF0
            · -- three-byte sequence
              rw [if_pos k4] at h
              cases rest with
              | nil => rw [utf8DecodeThree] at h; exact Option.noConfusion h
              | cons b1 rest1 =>
                rw [utf8DecodeThree] at h
                by_cases hc1 : 0x80 ≤ b1 ∧ b1 < 0xC0
                · rw [if_pos hc1] at h
                  cases rest1 with
                  | nil => rw [utf8DecodeThreeEnd] at h; exact Option.noConfusion h
                  | cons b2 rest2 =>
                    rw [utf8DecodeThreeEnd] at h
                    by_cases hc2 : (0x80 ≤ b2 ∧ b2 < 0xC0) ∧
                        0x800 ≤ ((b - 0xE0) * 64 + (b1 - 0x80)) * 64 + (b2 - 0x80) ∧
                        ¬(0xD800 ≤ ((b - 0xE0) * 64 + (b1 - 0x80)) * 64 + (b2 - 0x80) ∧
                          ((b - 0xE0) * 64 + (b1 - 0x80)) * 64 + (b2 - 0x80) ≤ 0xDFFF)
                    · rw [if_pos hc2, Option.map_eq_some'] at h
                      obtain ⟨t', ht', rfl⟩ := h
                      have hl : rest2.length ≤ n := by
                        simp only [List.length_cons] at hlen; omega
                      obtain ⟨hs, he⟩ := ih rest2 t' hl ht'
                      obtain ⟨⟨hb2, hb2'⟩, hval, hsur⟩ := hc2
                      obtain ⟨hb1, hb1'⟩ := hc1
                      refine ⟨?_, ?_⟩
                      · intro c hcm
                        rcases List.mem_cons.mp hcm with hcb | hct
                        · subst hcb
                          refine ⟨by omega, ?_⟩
                          intro hrange
                          exact hsur hrange
                        · exact hs c hct
                      · rw [utf8Bytes_cons, he, utf8EncodeChar, if_neg (by omega),
                          if_neg (by omega), if_pos (by omega)]
                        simp only [List.cons_append, List.nil_append, List.cons.injEq]
                        exact ⟨by omega, by omega, by omega, trivial⟩
                    · rw [if_neg hc2] at h; exact Option.noConfusion h
                · rw [if_neg hc1] at h; exact Option.noConfusion h
            · rw [if_neg k4] at h
              by_cases k5 : b < 0xF8
              · -- four-byte sequence
                rw [if_pos k5] at h
                cases rest with
                | nil => rw [utf8DecodeFour] at h; exact Option.noConfusion h
                | cons b1 rest1 =>
                  rw [utf8DecodeFour] at h
                  by_cases hc1 : 0x80 ≤ b1 ∧ b1 < 0xC0
                  · rw [if_pos hc1] at h
                    cases rest1 with
                    | nil => rw [utf8DecodeFourMid] at h; exact Option.noConfusion h
                    | cons b2 rest2 =>
                      rw [utf8DecodeFourMid] at h
                      by_cases hc2 : 0x80 ≤ b2 ∧ b2 < 0xC0
                      · rw [if_pos hc2] at h
                        cases rest2 with
                        | nil => rw [utf8DecodeFourEnd] at h; exact Option.noConfusion h
                        | cons b3 rest3 =>
                          rw [utf8DecodeFourEnd] at h
                          by_cases hc3 : (0x80 ≤ b3 ∧ b3 < 0xC0) ∧
                              0x10000 ≤ (((b - 0xF0) * 64 + (b1 - 0x80)) * 64 + (b2 - 0x80)) * 64
                                + (b3 - 0x80) ∧
                              (((b - 0xF0) * 64 + (b1 - 0x80)) * 64 + (b2 - 0x80)) * 64
                                + (b3 - 0x80) < 0x110000
                          · rw [if_pos hc3, Option.map_eq_some'] at h
                            obtain ⟨t', ht', rfl⟩ := h
                            have hl : rest3.length ≤ n := by
                              simp only [List.length_cons] at hlen; omega
                            obtain ⟨hs, he⟩ := ih rest3 t' hl ht'
                            obtain ⟨⟨hb3, hb3'⟩, hval, hval2⟩ := hc3
                            obtain ⟨hb1, hb1'⟩ := hc1
                            obtain ⟨hb2, hb2'⟩ := hc2
                            refine ⟨?_, ?_⟩
                            · intro c hcm
                              rcases List.mem_cons.mp hcm with hcb | hct
                              · subst hcb; exact ⟨by omega, by omega⟩
                              · exact hs c hct
                            · rw [utf8Bytes_cons, he, utf8EncodeChar, if_neg (by omega),
                                if_neg (by omega), if_neg (by omega)]
                              simp only [List.cons_append, List.nil_append, List.cons.injEq]
                              exact ⟨by omega, by omega, by omega, by omega, trivial⟩
                          · rw [if_neg hc3] at h; exact Option.noConfusion h
                      · rw [if_neg hc2] at h; exact Option.noConfusion h
                  · rw [if_neg hc1] at h; exact Option.noConfusion h
              · rw [if_neg k5] at h; exact Option.noConfusion h

/-- Every character of a successfully decoded text is a scalar value. -/
theorem utf8Decode_scalar (bs t : List Nat) (h : utf8Decode bs = some t) :
    ∀ c ∈ t, ScalarValue c :=
  (utf8Decode_inversion bs.length bs t (Nat.le_refl _) h).1

/-- Re-encoding a successfully decoded text restores the input bytes:
strict UTF-8 decode is a right inverse of UTF-8 encode. -/
theorem utf8Bytes_utf8Decode (bs t : List Nat) (h : utf8Decode bs = some t) :
    utf8Bytes t = bs :=
  (utf8Decode_inversion bs.length bs t (Nat.le_refl _) h).2

end FixEncoding

namespace FixEncoding

/-- The UTF-8 encoding of an in-range text consists of bytes. -/
theorem utf8Bytes_lt (t : List Nat) (h : ∀ c ∈ t, c < 0x110000) :
    ∀ b ∈ utf8Bytes t, b < 0x100 := by
  intro b hb
  rw [utf8Bytes, List.mem_flatten] at hb
  obtain ⟨l, hl, hbl⟩ := hb
  rw [List.mem_map] at hl
  obtain ⟨c, hc, rfl⟩ := hl
  exact utf8EncodeChar_lt c (h c hc) b hbl

/-- On a scalar value the per-character fallback chain always produces
bytes: cp1252 where defined, else the Latin-1 byte below 0x100, else the
UTF-8 bytes of the character. -/
theorem remapChar_isSome (c : Nat) (h : ScalarValue c) : (remapChar c).isSome = true := by
  rw [remapChar]
  cases hm : cp1252Encode c with
  | some b => rfl
  | none =>
    by_cases hle : c ≤ 0xFF
    · rw [if_pos hle]; rfl
    · rw [if_neg hle, pyEncodeUtf8, if_pos h]; rfl

/-- The accumulating loop succeeds on any text of scalar values. -/
theorem remapBytes_total (s : List Nat) (h : ∀ c ∈ s, ScalarValue c) :
    (remapBytes s).isSome = true := by
  induction s with
  | nil => rfl
  | cons c s ih =>
    rw [remapBytes_cons]
    have h1 := remapChar_isSome c (h c (List.mem_cons_self c s))
    have h2 := ih (fun x hx => h x (List.mem_cons_of_mem c hx))
    cases hm : remapChar c with
    | none => rw [hm] at h1; exact absurd h1 (by simp)
    | some bs =>
      cases hb : remapBytes s with
      | none => rw [hb] at h2; exact absurd h2 (by simp)
      | some r => rfl

/-- An ASCII code point is its own cp1252 byte. -/
theorem remapChar_ascii (c : Nat) (h : c < 0x80) : remapChar c = some [c] := by
  rw [remapChar, cp1252Encode, if_pos h]

/-- ASCII text is its own UTF-8 encoding. -/
theorem utf8Bytes_ascii (s : List Nat) (h : ∀ c ∈ s, c < 0x80) : utf8Bytes s = s := by
  induction s with
  | nil => rfl
  | cons c s ih =>
    rw [utf8Bytes_cons, utf8EncodeChar, if_pos (h c (List.mem_cons_self c s)),
      ih (fun x hx => h x (List.mem_cons_of_mem c hx))]
    rfl

/-- The remap buffer of ASCII text is the text itself. -/
theorem remapBytes_ascii (s : List Nat) (h : ∀ c ∈ s, c < 0x80) : remapBytes s = some s := by
  induction s with
  | nil => rfl
  | cons c s ih =>
    rw [remapBytes_cons, remapChar_ascii c (h c (List.mem_cons_self c s)),
      ih (fun x hx => h x (List.mem_cons_of_mem c hx))]
    rfl

end FixEncoding

namespace FixEncoding

/-- C1: round-trip — for every Unicode text T of scalar values (valid
UTF-8 text), corrupting T by decoding its UTF-8 bytes byte-by-byte as
Windows-1252 with the Latin-1 identity fallback and then running reverse
on the mojibake yields Repaired T: the per-character cp1252-then-latin-1
re-encoding exactly inverts the corruption and the byte buffer decodes as
UTF-8 back to T. -/
theorem roundTrip_reverse_corrupt (T : List Nat) (h : ∀ c ∈ T, ScalarValue c) :
    reverse (corrupt T) = Outcome.repaired T := by
  have hb : ∀ b ∈ utf8Bytes T, b < 0x100 := utf8Bytes_lt T (fun c hc => (h c hc).1)
  have h1 : remapBytes (corrupt T) = some (utf8Bytes T) := by
    rw [corrupt]
    exact remapBytes_map_corruptByte (utf8Bytes T) hb
  simp only [reverse, h1, utf8Decode_utf8Bytes T h]

/-- C1 witness: the round trip at the concrete text U+2019 followed by H. -/
theorem roundTrip_reverse_corrupt_witness :
    (∀ c ∈ [0x2019, 0x48], ScalarValue c) ∧
      reverse (corrupt [0x2019, 0x48]) = Outcome.repaired [0x2019, 0x48] :=
  ⟨by decide, roundTrip_reverse_corrupt [0x2019, 0x48] (by decide)⟩

/-- C2: the per-character algorithm, left to right and order-preserving —
a code point with a defined cp1252 encoding contributes that byte; failing
that, a code point up to 0xFF contributes its Latin-1 byte; failing both,
the UTF-8 bytes of the code point itself are appended; and the buffer of a
cons is the bytes of the head prepended to the buffer of the tail, so the
chain is per character, never a whole-string failure. -/
theorem remap_per_char_algorithm (c : Nat) (s : List Nat) :
    (∀ b, cp1252Encode c = some b → remapChar c = some [b]) ∧
    (cp1252Encode c = none → c ≤ 0xFF → remapChar c = some [c]) ∧
    (cp1252Encode c = none → 0xFF < c → remapChar c = pyEncodeUtf8 c) ∧
    (cp1252Encode c = none → 0xFF < c → ScalarValue c → remapChar c = some (utf8EncodeChar c)) ∧
    remapBytes (c :: s) = (remapChar c).bind (fun bs => (remapBytes s).map (fun r => bs ++ r)) := by
  refine ⟨?_, ?_, ?_, ?_, remapBytes_cons c s⟩
  · intro b hb; rw [remapChar, hb]
  · intro hb hle; rw [remapChar, hb, if_pos hle]
  · intro hb hgt; rw [remapChar, hb, if_neg (by omega)]
  · intro hb hgt hsc; rw [remapChar, hb, if_neg (by omega), pyEncodeUtf8, if_pos hsc]

/-- C2 witness: the branches at the concrete code points U+2019 (cp1252
byte 0x92) and the loop law at U+2019 before the letter A. -/
theorem remap_per_char_algorithm_witness :
    remapChar 0x2019 = some [0x92] ∧
      remapBytes [0x2019, 0x41] =
        (remapChar 0x2019).bind (fun bs => (remapBytes [0x41]).map (fun r => bs ++ r)) :=
  ⟨(remap_per_char_algorithm 0x2019 [0x41]).1 0x92 (by decide),
    (remap_per_char_algorithm 0x2019 [0x41]).2.2.2.2⟩

/-- C3: when the per-character remapping of the input produces a byte
sequence that is not valid UTF-8, reverse returns Unchanged — no exception
escapes — and at the file level the content is left unmodified with a
success result. -/
theorem invalid_remap_unchanged (s bs : List Nat) (h1 : remapBytes s = some bs)
    (h2 : utf8Decode bs = none) :
    reverse s = Outcome.unchanged ∧
      ∀ content, utf8Decode content = some s → fix_double_encoding content = (content, true) := by
  have hr : reverse s = Outcome.unchanged := by simp only [reverse, h1, h2]
  exact ⟨hr, fun content hc => by simp only [fix_double_encoding, hc, hr]⟩

/-- C3 witness: the text consisting of the lone code point U+0080 remaps
to the lone continuation byte 0x80, which is not valid UTF-8; the file
with content 0xC2 0x80 (UTF-8 for U+0080) is left unmodified. -/
theorem invalid_remap_unchanged_witness :
    remapBytes [0x80] = some [0x80] ∧ utf8Decode [0x80] = none ∧
      reverse [0x80] = Outcome.unchanged ∧
      fix_double_encoding [0xC2, 0x80] = ([0xC2, 0x80], true) :=
  ⟨by decide, by decide,
    (invalid_remap_unchanged [0x80] [0x80] (by decide) (by decide)).1,
    (invalid_remap_unchanged [0x80] [0x80] (by decide) (by decide)).2 [0xC2, 0x80] (by decide)⟩

/-- C4: on text composed solely of code points up to 0x7F the remapping
yields exactly the input's UTF-8 byte sequence (which is the text itself),
that sequence is valid UTF-8, and reverse returns Repaired of the very
same text. -/
theorem ascii_reverse_identity (s : List Nat) (h : ∀ c ∈ s, c < 0x80) :
    remapBytes s = some (utf8Bytes s) ∧ utf8Bytes s = s ∧
      utf8Decode (utf8Bytes s) = some s ∧ reverse s = Outcome.repaired s := by
  have ha : utf8Bytes s = s := utf8Bytes_ascii s h
  have hmb : remapBytes s = some (utf8Bytes s) := by rw [ha]; exact remapBytes_ascii s h
  have hd : utf8Decode (utf8Bytes s) = some s :=
    utf8Decode_utf8Bytes s (fun c hc => ⟨by have := h c hc; omega, by have := h c hc; omega⟩)
  refine ⟨hmb, ha, hd, ?_⟩
  simp only [reverse, hmb, hd]

/-- C4 witness: the ASCII text Hi. -/
theorem ascii_reverse_identity_witness :
    (∀ c ∈ [0x48, 0x69], c < 0x80) ∧ reverse [0x48, 0x69] = Outcome.repaired [0x48, 0x69] :=
  ⟨by decide, (ascii_reverse_identity [0x48, 0x69] (by decide)).2.2.2⟩

/-- C5 counterexample: the single letter A contains no Windows-1252 or
Latin-1 mojibake pattern, yet reverse does not return Unchanged on it (it
returns Repaired with the same text), so clean text does not always yield
Unchanged. -/
theorem clean_text_unchanged_counterexample :
    reverse [0x41] = Outcome.repaired [0x41] ∧ reverse [0x41] ≠ Outcome.unchanged := by
  decide

/-- C5 amended: clean text leaves the file content exactly as it was —
when the remapped buffer is not valid UTF-8 the outcome is Unchanged, and
on pure-ASCII clean text the outcome is Repaired with identical text, so
in both cases the written content equals the original content. -/
theorem clean_text_content_preserved (content text : List Nat)
    (hdec : utf8Decode content = some text)
    (hclean : (∃ bs, remapBytes text = some bs ∧ utf8Decode bs = none) ∨ ∀ c ∈ text, c < 0x80) :
    (fix_double_encoding content).1 = content := by
  rcases hclean with ⟨bs, h1, h2⟩ | hascii
  · have hr : reverse text = Outcome.unchanged := by simp only [reverse, h1, h2]
    simp only [fix_double_encoding, hdec, hr]
  · have hr : reverse text = Outcome.repaired text :=
      (ascii_reverse_identity text hascii).2.2.2
    simp only [fix_double_encoding, hdec, hr]
    exact utf8Bytes_utf8Decode content text hdec

/-- C5 amended witness: a file containing the single byte A. -/
theorem clean_text_content_preserved_witness :
    utf8Decode [0x41] = some [0x41] ∧ (fix_double_encoding [0x41]).1 = [0x41] :=
  ⟨by decide, clean_text_content_preserved [0x41] [0x41] (by decide) (Or.inr (by decide))⟩

/-- C6 counterexample: the surrogate code point U+D800 is a Unicode code
point on which all three attempted encodings fail — it has no cp1252
encoding, it exceeds 0xFF so Latin-1 fails, and the UTF-8 codec rejects
surrogates — so the per-character encoding loop fails on it and the claim
that every Unicode code point is covered is false. -/
theorem surrogate_escapes_all_encodings :
    cp1252Encode 0xD800 = none ∧ ¬(0xD800 ≤ 0xFF) ∧ pyEncodeUtf8 0xD800 = none ∧
      remapChar 0xD800 = none ∧ 0xD800 < 0x110000 := by
  decide

/-- C6 amended: for every Unicode scalar value — every code point that can
occur in UTF-8-decoded text, which excludes surrogates — at least one of
the three encodings succeeds; consequently on any text obtained by UTF-8
decoding (as every input to the reverser is) the encoding loop is total
and the Fatal outcome can never occur. -/
theorem scalar_remap_total (c : Nat) (bs text : List Nat) :
    (ScalarValue c → (remapChar c).isSome = true) ∧
    (utf8Decode bs = some text → (remapBytes text).isSome = true) ∧
    (utf8Decode bs = some text → reverse text ≠ Outcome.fatal) := by
  refine ⟨remapChar_isSome c, ?_, ?_⟩
  · intro hd
    exact remapBytes_total text (utf8Decode_scalar bs text hd)
  · intro hd
    have ht := remapBytes_total text (utf8Decode_scalar bs text hd)
    cases hm : remapBytes text with
    | none => rw [hm] at ht; exact absurd ht (by simp)
    | some out =>
      cases hdo : utf8Decode out <;> simp [reverse, hm, hdo]

/-- C6 amended witness: the scalar value 0x10000 and the decoded text of
the single byte file A. -/
theorem scalar_remap_total_witness :
    (remapChar 0x10000).isSome = true ∧ (remapBytes [0x41]).isSome = true ∧
      reverse [0x41] ≠ Outcome.fatal :=
  ⟨(scalar_remap_total 0x10000 [0x41] [0x41]).1 (by decide),
    (scalar_remap_total 0x10000 [0x41] [0x41]).2.1 (by decide),
    (scalar_remap_total 0x10000 [0x41] [0x41]).2.2 (by decide)⟩

/-- C7: atomicity — for every file content, the resulting content is
either the original byte-for-byte (on the Unchanged outcome and on every
failure path) or the complete UTF-8 encoding of the repaired text; no
partial or truncated state is ever produced. -/
theorem atomic_write (content : List Nat) :
    (fix_double_encoding content).1 = content ∨
      ∃ text t, utf8Decode content = some text ∧ reverse text = Outcome.repaired t ∧
        (fix_double_encoding content).1 = utf8Bytes t := by
  cases hd : utf8Decode content with
  | none => left; simp only [fix_double_encoding, hd]
  | some text =>
    cases hr : reverse text with
    | repaired t =>
      right
      exact ⟨text, t, rfl, hr, by simp only [fix_double_encoding, hd, hr]⟩
    | unchanged => left; simp only [fix_double_encoding, hd, hr]
    | fatal => left; simp only [fix_double_encoding, hd, hr]

/-- C8: end-to-end example — reverse of the mojibake text consisting of
the code points of I, U+00E2, U+20AC, U+2122, m, space, t, e, s, t, i, n,
g returns Repaired of I, U+2019 (right single quotation mark), m, space,
t, e, s, t, i, n, g. -/
theorem end_to_end_example :
    reverse [0x49, 0xE2, 0x20AC, 0x2122, 0x6D, 0x20, 0x74, 0x65, 0x73, 0x74, 0x69, 0x6E, 0x67] =
      Outcome.repaired [0x49, 0x2019, 0x6D, 0x20, 0x74, 0x65, 0x73, 0x74, 0x69, 0x6E, 0x67] := by
  decide

/-- C9 counterexample: U+00A0 is not a character mappable only in Latin-1
— the cp1252 codec does define an encoding for it (the same byte 0xA0), so
in the code it takes the Windows-1252 branch of the fallback chain, never
the Latin-1 fallback. -/
theorem nbsp_cp1252_encodable : cp1252Encode 0xA0 = some 0xA0 := by
  decide

/-- C9 amended: mixed-origin corruption is reversed character by
character, each character independently taking its own branch and
contributing its bytes in input order; the characters that genuinely
require the Latin-1 branch are those of the range U+0080 to U+009F that
cp1252 leaves undefined (such as U+0090), while U+00A0 is handled by the
cp1252 branch producing the same byte 0xA0. -/
theorem mixed_origin_per_char :
    remapChar 0x2019 = some [0x92] ∧
      cp1252Encode 0x90 = none ∧ remapChar 0x90 = some [0x90] ∧
      remapChar 0xA0 = some [0xA0] ∧
      remapBytes [0x2019, 0x90, 0xA0] = some [0x92, 0x90, 0xA0] := by
  decide

/-- C10: the byte-remapping stage is a homomorphism for concatenation —
the buffer of an appended text is the buffer of the first part followed by
the buffer of the second, since each character's bytes depend only on that
character. -/
theorem remapBytes_append (s t : List Nat) :
    remapBytes (s ++ t) =
      (remapBytes s).bind (fun a => (remapBytes t).map (fun b => a ++ b)) := by
  induction s with
  | nil =>
    show remapBytes t = _
    cases remapBytes t <;> simp [remapBytes, remapGo]
  | cons c s ih =>
    rw [List.cons_append, remapBytes_cons, remapBytes_cons, ih]
    cases remapChar c <;> cases remapBytes s <;> cases remapBytes t <;>
      simp [List.append_assoc]

end FixEncoding
